/-
  Verification development for DiviTrack (src/app.py), a Streamlit dividend
  tracking tool.  We give a shallow embedding of the app's portfolio-entry
  logic (sidebar form, symbol resolution, manual ticker normalization) and of
  the dividend aggregation and tax-estimation engine (the processing loop,
  per-holding error handling, summary figures, sorting and CSV export), and
  prove or refute the specified properties about them.

  Modelling conventions:
  * Python floats are modelled as exact rationals (ℚ); `round(x, 2)` is
    modelled as round-half-to-even at 2 decimal places, matching Python's
    `round` on exact values.
  * A pandas timestamp is modelled as a structure carrying its instant
    (days relative to an epoch) and an optional timezone tag; pandas raises
    `TypeError` when comparing a tz-aware index with a tz-naive timestamp,
    which we model with `Except`.
  * Python strings are Lean strings; `str.upper` maps ASCII letters,
    `str.strip()` removes the ASCII whitespace characters from both ends,
    `str.split`/`str.replace` are implemented character-faithfully below.
-/
import Mathlib

attribute [local semireducible] Rat.mul Rat.add Rat.sub Rat.inv

namespace DiviTrack

/-- A pandas `Timestamp`: `day` is the instant (days since an arbitrary
epoch), `tz` is the timezone tag (`none` = timezone-naive).
`pd.to_datetime` applied to a `datetime.date` always yields a naive
timestamp. -/
structure PyDate where
  day : ℤ
  tz : Option String
deriving DecidableEq, Repr

/-- One dividend event from `yf.Ticker(t).dividends`: a date-indexed
per-share amount. -/
structure DividendEvent where
  date : PyDate
  amount : ℚ
deriving DecidableEq, Repr

/-- One holding in `st.session_state.portfolio` (the dicts appended at
app.py lines 101-106).  `buyDate` is the `datetime.date` from
`st.date_input`, as a day count; the processing loop turns it into a
timezone-naive timestamp with `pd.to_datetime` (line 151). -/
structure Holding where
  ticker : String
  name : String
  qty : ℕ
  buyDate : ℤ
deriving DecidableEq, Repr

/-- Pandas comparison `timestamp_a > timestamp_b` (used elementwise by
`div_history.index > buy_date`, app.py line 169): comparing a tz-aware and
a tz-naive timestamp raises `TypeError`; otherwise compare the instants. -/
def tsGT (a b : PyDate) : Except String Bool :=
  match a.tz, b.tz with
  | none, none => .ok (decide (a.day > b.day))
  | some _, some _ => .ok (decide (a.day > b.day))
  | _, _ => .error "Cannot compare tz-naive and tz-aware timestamps"

/-- `div_history[div_history.index > buy_date]` (app.py line 169): keep the
events whose date is strictly greater than `buyDate`; the whole filter
raises if any single comparison raises. -/
def filterAfter (buyDate : PyDate) : List DividendEvent → Except String (List DividendEvent)
  | [] => .ok []
  | e :: rest => do
      let b ← tsGT e.date buyDate
      let rest' ← filterAfter buyDate rest
      pure (if b then e :: rest' else rest')

/-- Floor of a rational, computed by floor-division of numerator by
denominator (kept executable so concrete runs evaluate by `decide`). -/
def ratFloor (q : ℚ) : ℤ := Int.fdiv q.num (q.den : ℤ)

/-- Round-half-to-even to an integer (Python's `round` on the exact value). -/
def roundHalfEven (q : ℚ) : ℤ :=
  let n : ℤ := ratFloor q
  if q - n < 1/2 then n
  else if (1:ℚ)/2 < q - n then n + 1
  else if 2 ∣ n then n else n + 1

/-- Python `round(x, 2)` on the exact value `x`. -/
def round2 (q : ℚ) : ℚ := (roundHalfEven (q * 100) : ℚ) / 100

/-! ### Python string primitives

The sidebar form manipulates strings with `str.upper`, `str.replace`,
`str.strip`, `str.split` and `str.endswith`; we implement each one
character-faithfully over the string's character list. -/

/-- The characters Python's argumentless `str.strip` removes (ASCII
whitespace; the inputs in question are ASCII ticker strings). -/
def isPySpace (c : Char) : Bool :=
  c = ' ' || c = '\t' || c = '\n' || c = '\r' || c = '\x0b' || c = '\x0c'

/-- Python `s.upper()` (ASCII letters). -/
def pyUpper (s : String) : String := ⟨s.data.map Char.toUpper⟩

/-- Python `s.replace(c, "")` for a single-character needle: remove every
occurrence of `c`. -/
def removeChar (c : Char) (s : String) : String := ⟨s.data.filter (· ≠ c)⟩

/-- Python `s.strip()`: drop leading and trailing whitespace. -/
def pyStrip (s : String) : String :=
  ⟨((s.data.dropWhile isPySpace).reverse.dropWhile isPySpace).reverse⟩

/-- Python `s.split(c)` for a one-character separator, on character lists:
always returns a non-empty list of chunks. -/
def splitOnChar (c : Char) : List Char → List (List Char)
  | [] => [[]]
  | x :: xs =>
    match splitOnChar c xs with
    | [] => [[]]
    | y :: ys => if x = c then [] :: y :: ys else (x :: y) :: ys

/-- Python `s.split(c)[0]`. -/
def pySplitFirst (s : String) (c : Char) : String :=
  ⟨(splitOnChar c s.data).headD []⟩

/-- Python `s.split(c)[-1]`. -/
def pySplitLast (s : String) (c : Char) : String :=
  ⟨(splitOnChar c s.data).getLastD []⟩

/-- Python `s.endswith(suffix)`. -/
def pyEndsWith (s suffix : String) : Bool := List.isSuffixOf suffix.data s.data

/-! ### Sidebar form: symbol resolution and the Add/Clear operations
(app.py lines 55-114) -/

/-- Dropdown-path symbol extraction (app.py lines 70-77): from a selection
`"Company Name (SYMBOL)"`, take everything after the last `(`, remove every
`)`, strip, and unconditionally append `".NS"`; the display name is the part
before the first `(`, stripped.  An empty selection models the falsy
`if user_selection:` (nothing picked).  The `except` branch at lines 78-79
only guards exceptions, which `split`/`replace`/`strip` cannot raise on a
string, so it is dead and not modelled. -/
def parseSelection (sel : String) : Option (String × String) :=
  if sel = "" then none
  else
    let cleanSymbol := pyStrip (removeChar ')' (pySplitLast sel '('))
    some (cleanSymbol ++ ".NS", pyStrip (pySplitFirst sel '('))

/-- Manual-path normalization (app.py line 88):
`raw_input.upper().replace(" ", "").strip()`. -/
def manualClean (raw : String) : String := pyStrip (removeChar ' ' (pyUpper raw))

/-- Manual-path ticker (app.py line 90): append `".NS"` unless the cleaned
symbol already ends with it. -/
def manualTicker (raw : String) : String :=
  let c := manualClean raw
  if pyEndsWith c ".NS" then c else c ++ ".NS"

/-- Manual entry (app.py lines 86-91): an empty `raw_input` is falsy and
resolves nothing; otherwise the normalized ticker doubles as the display
name. -/
def manualResolve (raw : String) : Option (String × String) :=
  if raw = "" then none
  else some (manualTicker raw, manualTicker raw)

/-- The submit handler (app.py lines 99-109): with a truthy resolved ticker,
append the holding dict to `st.session_state.portfolio` and report success
(`none`); otherwise leave the portfolio unchanged and show the error.
`buyDate` is the `datetime.date` from `st.date_input`, as a day count. -/
def submitAdd (portfolio : List Holding) (resolved : Option (String × String))
    (qty : ℕ) (buyDate : ℤ) : List Holding × Option String :=
  match resolved with
  | some (ticker, name) =>
    if ticker = "" then (portfolio, some "Please select or enter a stock.")
    else (portfolio ++ [⟨ticker, name, qty, buyDate⟩], none)
  | none => (portfolio, some "Please select or enter a stock.")

/-- The Clear Portfolio button (app.py lines 112-114). -/
def clearPortfolio (_portfolio : List Holding) : List Holding := []

/-! ### Dividend aggregation engine (app.py lines 129-217) -/

/-- One row appended to `all_payouts` (app.py lines 176-183).  `divPerShare`
is the per-share amount behind the `f"₹{amount}"` display string; `exDate`
is `date_val.date()` (the calendar day); `totalPayout` is
`round(payout, 2)`. -/
structure PayoutLineItem where
  stock : String
  symbol : String
  exDate : ℤ
  divPerShare : ℚ
  qty : ℕ
  totalPayout : ℚ
deriving DecidableEq, Repr

/-- Build the `all_payouts` row for one surviving dividend event
(app.py lines 173-183). -/
def mkLineItem (name ticker : String) (qty : ℕ) (e : DividendEvent) : PayoutLineItem :=
  { stock := name
    symbol := ticker
    exDate := e.date.day
    divPerShare := e.amount
    qty := qty
    totalPayout := round2 (e.amount * (qty : ℚ)) }

/-- What one iteration of the processing loop contributes: its rows, its
(unrounded) addition to `total_gross_dividend`, and the `st.error` message
when the `except` branch ran. -/
structure HoldingOutcome where
  items : List PayoutLineItem
  gross : ℚ
  errMsg : Option String
deriving DecidableEq, Repr

/-- The message shown by the `except` branch (app.py line 187). -/
def fetchErrorMsg (name ticker e : String) : String :=
  "Could not fetch data for " ++ name ++ " (" ++ ticker ++ "). Server message: " ++ e

/-- One iteration of the processing loop (app.py lines 157-187), fed the
result of `yf.Ticker(ticker).dividends` (`.error` = the lookup raised,
`.ok` = the fetched series).  An empty series is a silent no-op (lines
163-166); otherwise the series is filtered by
`div_history.index > buy_date` where `buy_date = pd.to_datetime(BuyDate)`
is timezone-naive — a comparison that itself raises (tz-aware index) lands
in the same `except` branch as a failed fetch.  Each surviving event adds
`amount * qty` unrounded to the gross total and appends a row. -/
def processHolding (h : Holding) (fetched : Except String (List DividendEvent)) :
    HoldingOutcome :=
  match fetched with
  | .error e => ⟨[], 0, some (fetchErrorMsg h.name h.ticker e)⟩
  | .ok divHistory =>
    if divHistory.isEmpty then ⟨[], 0, none⟩
    else
      match filterAfter ⟨h.buyDate, none⟩ divHistory with
      | .error e => ⟨[], 0, some (fetchErrorMsg h.name h.ticker e)⟩
      | .ok myDividends =>
        ⟨myDividends.map (mkLineItem h.name h.ticker h.qty),
         (myDividends.map (fun e => e.amount * (h.qty : ℚ))).sum,
         none⟩

/-- The state threaded through the processing loop:
`total_gross_dividend`, `all_payouts`, and the `st.error` warnings shown so
far. -/
structure RunState where
  totalGross : ℚ
  allPayouts : List PayoutLineItem
  warnings : List String
deriving DecidableEq, Repr

/-- Fold one holding into the run state (one iteration of the loop at
app.py lines 147-187). -/
def stepHolding (fetch : String → Except String (List DividendEvent))
    (acc : RunState) (h : Holding) : RunState :=
  let r := processHolding h (fetch h.ticker)
  { totalGross := acc.totalGross + r.gross
    allPayouts := acc.allPayouts ++ r.items
    warnings := acc.warnings ++ r.errMsg.toList }

/-- The whole processing loop (app.py lines 132-189): holdings in portfolio
order, starting from `total_gross_dividend = 0`, `all_payouts = []`.
`fetch` is the external market-data provider. -/
def runAggregation (portfolio : List Holding)
    (fetch : String → Except String (List DividendEvent)) : RunState :=
  portfolio.foldl (stepHolding fetch) ⟨0, [], []⟩

/-- The four summary figures (app.py lines 192-194). -/
structure Summary where
  totalGross : ℚ
  tdsAmount : ℚ
  incomeTaxAmount : ℚ
  finalInHand : ℚ
deriving DecidableEq, Repr

/-- app.py lines 192-194:
`tds_amount = total_gross_dividend * 0.10 if apply_tds else 0`,
`income_tax_amount = total_gross_dividend * (tax_slab / 100)`,
`final_in_hand = total_gross_dividend - income_tax_amount`. -/
def computeSummary (totalGross : ℚ) (taxSlab : ℕ) (applyTds : Bool) : Summary :=
  let tds : ℚ := if applyTds then totalGross * (1/10) else 0
  let tax : ℚ := totalGross * ((taxSlab : ℚ) / 100)
  { totalGross := totalGross
    tdsAmount := tds
    incomeTaxAmount := tax
    finalInHand := totalGross - tax }

/-! ### Results table and CSV export (app.py lines 205-215) -/

/-- `pd.DataFrame(all_payouts).sort_values(by="Ex-Date", ascending=False)`:
the rows ordered by record date, most recent first. -/
def sortByExDateDesc (items : List PayoutLineItem) : List PayoutLineItem :=
  List.insertionSort (fun a b => b.exDate ≤ a.exDate) items

/-- The CSV header row `to_csv` writes: the DataFrame's columns are the
insertion-ordered keys of the dicts appended at app.py lines 176-183. -/
def csvHeader : String := "Stock,Symbol,Ex-Date,Dividend/Share,Qty,Total Payout"

/-- Display stand-in for a numeric cell. -/
def ratText (q : ℚ) : String := toString q

/-- Minimal CSV quoting as `to_csv` performs it: a field containing a comma,
quote or line break is wrapped in double quotes with inner quotes doubled. -/
def csvField (s : String) : String :=
  if s.data.any (fun c => c = ',' || c = '"' || c = '\n' || c = '\r') then
    "\"" ++ ⟨s.data.flatMap (fun c => if c = '"' then ['"', '"'] else [c])⟩ ++ "\""
  else s

/-- One CSV record per `all_payouts` row, fields in column order. -/
def csvRow (it : PayoutLineItem) : String :=
  String.intercalate ","
    [csvField it.stock, csvField it.symbol, toString it.exDate,
     csvField ("₹" ++ ratText it.divPerShare), toString it.qty,
     ratText it.totalPayout]

/-- The records of `df_results.to_csv(index=False)`: the header row, then
one record per line item, in Ex-Date-descending order. -/
def csvRecords (items : List PayoutLineItem) : List String :=
  csvHeader :: (sortByExDateDesc items).map csvRow

/-- The exported text (`.encode('utf-8')` is applied to this string). -/
def csvText (items : List PayoutLineItem) : String :=
  String.intercalate "\n" (csvRecords items) ++ "\n"

/-! ### Specification-side definitions

These follow the words of spec.md / the claims (not the source); they exist
to be compared with the source-derived definitions above. -/

/-- The events the spec calls eligible: record date strictly greater than
the purchase date (spec.md §4.3 step 4). -/
def eligibleEvents (buyDate : ℤ) (s : List DividendEvent) : List DividendEvent :=
  s.filter fun e => decide (buyDate < e.date.day)

/-- The Ticker Validator as spec.md §4.1 describes it: normalize
(uppercase, strip), reject "too long" past 20 characters, reject
"invalid characters" outside `[A-Z0-9.]`, else accept.  No such validation
exists anywhere in src/app.py; this definition states the claim's contract
for comparison. -/
def specValidateTicker (raw : String) : Except String String :=
  let t := pyStrip (pyUpper raw)
  if 20 < t.data.length then .error "too long"
  else if t.data.any (fun c =>
      !(('A' ≤ c && c ≤ 'Z') || ('0' ≤ c && c ≤ '9') || c = '.')) then
    .error "invalid characters"
  else .ok t

/-- A "valid, normalized ticker" in the sense of spec.md §3 (Holding data
model): characters in `[A-Z0-9.]`, length at most 20. -/
def specTickerOK (t : String) : Bool :=
  t.data.length ≤ 20 &&
    t.data.all (fun c => ('A' ≤ c && c ≤ 'Z') || ('0' ≤ c && c ≤ '9') || c = '.')

/-- C10's described manual normalization, from the claim's words: remove
all space characters, uppercase, append `".NS"` exactly when the result
does not already end with it (no stripping of other whitespace). -/
def claimManualTicker (raw : String) : String :=
  let c := pyUpper (removeChar ' ' raw)
  if pyEndsWith c ".NS" then c else c ++ ".NS"

/-- The operations that mutate `st.session_state.portfolio`: submitting the
form with a dropdown selection, submitting it with a manual ticker, and the
Clear button. -/
inductive FormOp where
  | addSelect (sel : String) (qty : ℕ) (buyDate : ℤ)
  | addManual (raw : String) (qty : ℕ) (buyDate : ℤ)
  | clear
deriving DecidableEq, Repr

/-- Effect of one form operation on the portfolio (app.py lines 99-114). -/
def applyOp (p : List Holding) : FormOp → List Holding
  | .addSelect sel qty d => (submitAdd p (parseSelection sel) qty d).1
  | .addManual raw qty d => (submitAdd p (manualResolve raw) qty d).1
  | .clear => clearPortfolio p

/-- The bounds `st.number_input("Quantity", min_value=1, max_value=100000)`
enforces on the submitted quantity (app.py line 94). -/
def opQtyOK : FormOp → Prop
  | .addSelect _ q _ => 1 ≤ q ∧ q ≤ 100000
  | .addManual _ q _ => 1 ≤ q ∧ q ≤ 100000
  | .clear => True

/-- The store invariant the code actually maintains: widget-bounded
quantity and a non-empty ticker ending in `".NS"`. -/
def holdingInv (h : Holding) : Prop :=
  1 ≤ h.qty ∧ h.qty ≤ 100000 ∧ pyEndsWith h.ticker ".NS" = true ∧ h.ticker ≠ ""

instance : DecidablePred opQtyOK := fun op => by
  cases op <;> simp [opQtyOK] <;> infer_instance

instance : DecidablePred holdingInv := fun h => by
  unfold holdingInv; infer_instance

/-! ### Test fixtures used by the witnesses -/

/-- A three-holding portfolio whose first ticker's lookup raises and whose
second returns an empty dividend history. -/
def samplePortfolio : List Holding :=
  [⟨"A.NS", "A", 10, 0⟩, ⟨"B.NS", "B", 20, 0⟩, ⟨"C.NS", "C", 100, 0⟩]

def sampleFetch : String → Except String (List DividendEvent) := fun t =>
  if t = "A.NS" then .error "HTTP 404"
  else if t = "B.NS" then .ok []
  else .ok [⟨⟨31, none⟩, 2⟩]

/-! ## Helper lemmas -/

theorem data_append (a b : String) : (a ++ b).data = a.data ++ b.data := by
  cases a; cases b; rfl

theorem splitOnChar_ne_nil (c : Char) (l : List Char) : splitOnChar c l ≠ [] := by
  cases l with
  | nil => simp [splitOnChar]
  | cons x xs =>
    simp only [splitOnChar]
    cases h : splitOnChar c xs with
    | nil => simp
    | cons y ys => by_cases hx : x = c <;> simp [hx]

theorem splitOnChar_of_not_mem {c : Char} {l : List Char} (h : c ∉ l) :
    splitOnChar c l = [l] := by
  induction l with
  | nil => rfl
  | cons x xs ih =>
    have hx : x ≠ c := fun hEq => h (hEq ▸ List.mem_cons_self x xs)
    have hxs : c ∉ xs := fun hmem => h (List.mem_cons_of_mem x hmem)
    simp only [splitOnChar, ih hxs, hx, if_false]

theorem two_le_length_splitOnChar {c : Char} {l : List Char} (h : c ∈ l) :
    2 ≤ (splitOnChar c l).length := by
  induction l with
  | nil => cases h
  | cons x xs ih =>
    simp only [splitOnChar]
    cases h' : splitOnChar c xs with
    | nil => exact absurd h' (splitOnChar_ne_nil c xs)
    | cons y ys =>
      by_cases hx : x = c
      · simp [hx]
      · have hmem : c ∈ xs := by
          rcases List.mem_cons.mp h with h1 | h1
          · exact absurd h1.symm hx
          · exact h1
        have := ih hmem
        rw [h'] at this
        simp only [hx, if_false]
        simpa using this

theorem getLast?_splitOnChar_append (c : Char) (l₁ l₂ : List Char) :
    (splitOnChar c (l₁ ++ c :: l₂)).getLast? = (splitOnChar c l₂).getLast? := by
  induction l₁ with
  | nil =>
    simp only [List.nil_append, splitOnChar]
    cases h' : splitOnChar c l₂ with
    | nil => exact absurd h' (splitOnChar_ne_nil c l₂)
    | cons y ys => simp
  | cons x l₁ ih =>
    simp only [List.cons_append, splitOnChar]
    cases h' : splitOnChar c (l₁ ++ c :: l₂) with
    | nil => exact absurd h' (splitOnChar_ne_nil c _)
    | cons y ys =>
      rw [h'] at ih
      by_cases hx : x = c
      · simpa [hx] using ih
      · have hmem : c ∈ l₁ ++ c :: l₂ := List.mem_append_right _ (List.mem_cons_self c l₂)
        have hlen := two_le_length_splitOnChar hmem
        rw [h'] at hlen
        cases ys with
        | nil => simp at hlen
        | cons z zs => simpa [hx] using ih

theorem headD_splitOnChar_append {c : Char} {l₁ : List Char} (l₂ : List Char)
    (h : c ∉ l₁) : (splitOnChar c (l₁ ++ c :: l₂)).headD [] = l₁ := by
  induction l₁ with
  | nil =>
    simp only [List.nil_append, splitOnChar]
    cases h' : splitOnChar c l₂ with
    | nil => exact absurd h' (splitOnChar_ne_nil c l₂)
    | cons y ys => simp
  | cons x l₁ ih =>
    have hx : x ≠ c := fun hEq => h (hEq ▸ List.mem_cons_self x l₁)
    have hl₁ : c ∉ l₁ := fun hmem => h (List.mem_cons_of_mem x hmem)
    simp only [List.cons_append, splitOnChar]
    cases h' : splitOnChar c (l₁ ++ c :: l₂) with
    | nil => exact absurd h' (splitOnChar_ne_nil c _)
    | cons y ys =>
      have := ih hl₁
      rw [h'] at this
      simp only [List.headD_cons] at this
      simp [hx, this]

theorem char_eq_iff_toNat {c d : Char} : c = d ↔ c.toNat = d.toNat :=
  ⟨fun h => h ▸ rfl, fun h => by rw [← Char.ofNat_toNat c, h, Char.ofNat_toNat]⟩

theorem toNat_ofNat_valid (m : ℕ) (h : m < 55296) : (Char.ofNat m).toNat = m := by
  rw [Char.ofNat, dif_pos (Or.inl h)]
  simp [Char.ofNatAux, Char.toNat, UInt32.ofNat', UInt32.toNat, BitVec.toNat_ofNatLt]

theorem toNat_toUpper (c : Char) :
    (Char.toUpper c).toNat =
      if 97 ≤ c.toNat ∧ c.toNat ≤ 122 then c.toNat - 32 else c.toNat := by
  unfold Char.toUpper
  split
  · next h => rw [if_pos (by omega), toNat_ofNat_valid _ (by omega)]
  · next h => rw [if_neg (by omega)]

theorem toUpper_eq_space_iff (c : Char) : Char.toUpper c = ' ' ↔ c = ' ' := by
  rw [char_eq_iff_toNat, char_eq_iff_toNat (c := c), toNat_toUpper]
  have hsp : (' ' : Char).toNat = 32 := rfl
  rw [hsp]
  by_cases h : 97 ≤ c.toNat ∧ c.toNat ≤ 122
  · rw [if_pos h]
    constructor <;> (intro h'; omega)
  · rw [if_neg h]

theorem isPySpace_iff_toNat (c : Char) :
    isPySpace c = true ↔
      (c.toNat = 32 ∨ c.toNat = 9 ∨ c.toNat = 10 ∨ c.toNat = 13 ∨
        c.toNat = 11 ∨ c.toNat = 12) := by
  have h1 : (' ' : Char).toNat = 32 := rfl
  have h2 : ('\t' : Char).toNat = 9 := rfl
  have h3 : ('\n' : Char).toNat = 10 := rfl
  have h4 : ('\r' : Char).toNat = 13 := rfl
  have h5 : ('\x0b' : Char).toNat = 11 := rfl
  have h6 : ('\x0c' : Char).toNat = 12 := rfl
  simp only [isPySpace, Bool.or_eq_true, decide_eq_true_eq,
    char_eq_iff_toNat (d := ' '), char_eq_iff_toNat (d := '\t'),
    char_eq_iff_toNat (d := '\n'), char_eq_iff_toNat (d := '\r'),
    char_eq_iff_toNat (d := '\x0b'), char_eq_iff_toNat (d := '\x0c'),
    h1, h2, h3, h4, h5, h6]
  tauto

theorem isPySpace_toUpper (c : Char) : isPySpace (Char.toUpper c) = isPySpace c := by
  by_cases h : 97 ≤ c.toNat ∧ c.toNat ≤ 122
  · have h1 : isPySpace c = false := by
      rw [Bool.eq_false_iff]
      intro hc
      rw [isPySpace_iff_toNat] at hc
      omega
    have h2 : isPySpace (Char.toUpper c) = false := by
      rw [Bool.eq_false_iff]
      intro hc
      rw [isPySpace_iff_toNat, toNat_toUpper, if_pos h] at hc
      omega
    rw [h1, h2]
  · have : Char.toUpper c = c := by
      rw [char_eq_iff_toNat, toNat_toUpper, if_neg h]
    rw [this]

theorem dropWhile_eq_self_of_all_false {p : Char → Bool} {l : List Char}
    (h : ∀ c ∈ l, p c = false) : l.dropWhile p = l := by
  cases l with
  | nil => rfl
  | cons x xs => rw [List.dropWhile_cons, h x (List.mem_cons_self x xs)]; simp

theorem pyStrip_of_no_space {l : List Char} (h : ∀ c ∈ l, isPySpace c = false) :
    pyStrip ⟨l⟩ = ⟨l⟩ := by
  unfold pyStrip
  rw [dropWhile_eq_self_of_all_false h,
    dropWhile_eq_self_of_all_false (fun c hc => h c (List.mem_reverse.mp hc)),
    List.reverse_reverse]

theorem filter_ne_space_map_toUpper (l : List Char) :
    (l.map Char.toUpper).filter (fun c => c ≠ ' ') =
      (l.filter (fun c => c ≠ ' ')).map Char.toUpper := by
  induction l with
  | nil => rfl
  | cons x xs ih =>
    simp only [ne_eq, decide_not] at ih
    by_cases hx : x = ' '
    · subst hx
      have hsp : Char.toUpper ' ' = ' ' := rfl
      simp [hsp, ih]
    · have hup : Char.toUpper x ≠ ' ' := fun hEq => hx ((toUpper_eq_space_iff x).mp hEq)
      simp [hx, hup, ih]

theorem pyEndsWith_iff (s suffix : String) :
    pyEndsWith s suffix = true ↔ suffix.data <:+ s.data := by
  unfold pyEndsWith
  exact List.isSuffixOf_iff_suffix

theorem pyEndsWith_append_NS (c : String) : pyEndsWith (c ++ ".NS") ".NS" = true := by
  rw [pyEndsWith_iff, data_append]
  exact List.suffix_append c.data (".NS").data

theorem ne_empty_of_pyEndsWith_NS {t : String} (h : pyEndsWith t ".NS" = true) :
    t ≠ "" := by
  rw [pyEndsWith_iff] at h
  intro hEq
  subst hEq
  have := h.length_le
  simp at this

theorem manualTicker_endsWith_NS (raw : String) :
    pyEndsWith (manualTicker raw) ".NS" = true := by
  unfold manualTicker
  by_cases h : pyEndsWith (manualClean raw) ".NS" = true
  · simp [h]
  · simp only [Bool.not_eq_true] at h
    simp [h, pyEndsWith_append_NS]

theorem manualTicker_ne_empty (raw : String) : manualTicker raw ≠ "" :=
  ne_empty_of_pyEndsWith_NS (manualTicker_endsWith_NS raw)

/-! Engine helper lemmas -/

theorem filterAfter_naive (bd : ℤ) (s : List DividendEvent)
    (h : ∀ e ∈ s, e.date.tz = none) :
    filterAfter ⟨bd, none⟩ s = .ok (eligibleEvents bd s) := by
  induction s with
  | nil => rfl
  | cons e rest ih =>
    have he : e.date.tz = none := h e (List.mem_cons_self e rest)
    have hrest := ih fun x hx => h x (List.mem_cons_of_mem e hx)
    have htsGT : tsGT e.date ⟨bd, none⟩ = .ok (decide (bd < e.date.day)) := by
      unfold tsGT
      rw [he]
    simp only [filterAfter, htsGT, hrest, Bind.bind, Except.bind]
    by_cases hlt : bd < e.date.day <;>
      simp [eligibleEvents, List.filter_cons, hlt, Pure.pure, Except.pure]

theorem mkLineItem_inj {nm tk : String} {q : ℕ} {x e : DividendEvent}
    (hx : x.date.tz = none) (he : e.date.tz = none) :
    mkLineItem nm tk q x = mkLineItem nm tk q e ↔ x = e := by
  constructor
  · intro hEq
    simp only [mkLineItem, PayoutLineItem.mk.injEq] at hEq
    obtain ⟨⟨xd, xtz⟩, xa⟩ := x
    obtain ⟨⟨ed, etz⟩, ea⟩ := e
    simp only at hx he
    subst hx
    subst he
    simp_all
  · intro hEq
    rw [hEq]

theorem count_map_mkLineItem (nm tk : String) (q : ℕ) (l : List DividendEvent)
    (e : DividendEvent) (hl : ∀ x ∈ l, x.date.tz = none) (he : e.date.tz = none) :
    (l.map (mkLineItem nm tk q)).count (mkLineItem nm tk q e) = l.count e := by
  induction l with
  | nil => rfl
  | cons x xs ih =>
    have hx : x.date.tz = none := hl x (List.mem_cons_self x xs)
    have hxs := ih fun y hy => hl y (List.mem_cons_of_mem x hy)
    simp only [List.map_cons, List.count_cons, hxs]
    congr 1
    have : (mkLineItem nm tk q x = mkLineItem nm tk q e) ↔ (x = e) :=
      mkLineItem_inj hx he
    by_cases hxe : x = e
    · simp [hxe]
    · have hne : mkLineItem nm tk q x ≠ mkLineItem nm tk q e := fun hc => hxe (this.mp hc)
      simp [hxe, hne]

theorem foldl_stepHolding (fetch : String → Except String (List DividendEvent)) :
    ∀ (p : List Holding) (acc : RunState),
      p.foldl (stepHolding fetch) acc =
        ⟨acc.totalGross + (p.map fun h => (processHolding h (fetch h.ticker)).gross).sum,
         acc.allPayouts ++ (p.map fun h => (processHolding h (fetch h.ticker)).items).flatten,
         acc.warnings ++ (p.map fun h => (processHolding h (fetch h.ticker)).errMsg.toList).flatten⟩ := by
  intro p
  induction p with
  | nil => intro acc; simp
  | cons h t ih =>
    intro acc
    rw [List.foldl_cons, ih]
    simp [stepHolding, add_assoc]

theorem processHolding_failure (h : Holding)
    (fetched : Except String (List DividendEvent))
    (hfail : (∃ e, fetched = .error e) ∨ fetched = .ok []) :
    (processHolding h fetched).items = [] ∧ (processHolding h fetched).gross = 0 := by
  rcases hfail with ⟨e, hEq⟩ | hEq <;> subst hEq <;> simp [processHolding]

theorem parseSelection_endsWith_NS (sel t n : String)
    (h : parseSelection sel = some (t, n)) : pyEndsWith t ".NS" = true := by
  unfold parseSelection at h
  by_cases hsel : sel = ""
  · simp [hsel] at h
  · simp only [hsel, if_false, Option.some.injEq, Prod.mk.injEq] at h
    rw [← h.1]
    exact pyEndsWith_append_NS _

theorem manualResolve_endsWith_NS (raw t n : String)
    (h : manualResolve raw = some (t, n)) : pyEndsWith t ".NS" = true := by
  unfold manualResolve at h
  by_cases hraw : raw = ""
  · simp [hraw] at h
  · simp only [hraw, if_false, Option.some.injEq, Prod.mk.injEq] at h
    rw [← h.1]
    exact manualTicker_endsWith_NS raw

theorem submitAdd_inv {p : List Holding} {res : Option (String × String)}
    {q : ℕ} {d : ℤ} (hp : ∀ h ∈ p, holdingInv h) (hq : 1 ≤ q ∧ q ≤ 100000)
    (hres : ∀ t n, res = some (t, n) → pyEndsWith t ".NS" = true) :
    ∀ h ∈ (submitAdd p res q d).1, holdingInv h := by
  intro h hmem
  cases res with
  | none => exact hp h hmem
  | some tn =>
    obtain ⟨t, n⟩ := tn
    have ht := hres t n rfl
    have htne := ne_empty_of_pyEndsWith_NS ht
    simp only [submitAdd, if_neg htne] at hmem
    rcases List.mem_append.mp hmem with hm | hm
    · exact hp h hm
    · simp only [List.mem_singleton] at hm
      subst hm
      exact ⟨hq.1, hq.2, ht, htne⟩

theorem applyOp_inv {p : List Holding} {op : FormOp}
    (hp : ∀ h ∈ p, holdingInv h) (hop : opQtyOK op) :
    ∀ h ∈ applyOp p op, holdingInv h := by
  cases op with
  | clear => simp [applyOp, clearPortfolio]
  | addSelect sel q d =>
    exact submitAdd_inv hp hop (fun t n h => parseSelection_endsWith_NS sel t n h)
  | addManual raw q d =>
    exact submitAdd_inv hp hop (fun t n h => manualResolve_endsWith_NS raw t n h)

/-- C1: for every holding and every (timezone-naive) fetched dividend
series, an event yields a line item iff its record date is strictly greater
than the purchase date; events at or before the purchase date never appear;
each qualifying event appears exactly once (same multiplicity as in the
filtered series), with the unrounded `amount × qty` accumulated into the
gross total and rounding to 2 decimals applied only in the line item. -/
theorem C1_payout_filter (h : Holding) (s : List DividendEvent)
    (hnaive : ∀ e ∈ s, e.date.tz = none) :
    (processHolding h (.ok s)).items
        = (eligibleEvents h.buyDate s).map (mkLineItem h.name h.ticker h.qty)
  ∧ (processHolding h (.ok s)).gross
        = ((eligibleEvents h.buyDate s).map fun e => e.amount * (h.qty : ℚ)).sum
  ∧ (∀ e ∈ s, (mkLineItem h.name h.ticker h.qty e ∈ (processHolding h (.ok s)).items
        ↔ h.buyDate < e.date.day))
  ∧ (∀ e ∈ s, ((processHolding h (.ok s)).items).count (mkLineItem h.name h.ticker h.qty e)
        = (eligibleEvents h.buyDate s).count e)
  ∧ (∀ e ∈ s, (mkLineItem h.name h.ticker h.qty e).totalPayout
        = round2 (e.amount * (h.qty : ℚ))) := by
  have hmain : (processHolding h (.ok s)).items
        = (eligibleEvents h.buyDate s).map (mkLineItem h.name h.ticker h.qty)
      ∧ (processHolding h (.ok s)).gross
        = ((eligibleEvents h.buyDate s).map fun e => e.amount * (h.qty : ℚ)).sum := by
    by_cases hs : s = []
    · subst hs; exact ⟨rfl, rfl⟩
    · have hs' : s.isEmpty = false := by simpa using hs
      simp [processHolding, hs', filterAfter_naive h.buyDate s hnaive]
  refine ⟨hmain.1, hmain.2, ?_, ?_, fun e _ => rfl⟩
  · intro e hes
    rw [hmain.1]
    constructor
    · intro hmem
      obtain ⟨x, hx, hmk⟩ := List.mem_map.mp hmem
      have hxs : x ∈ s := (List.mem_filter.mp hx).1
      have hxe : x = e := (mkLineItem_inj (hnaive x hxs) (hnaive e hes)).mp hmk
      subst hxe
      simpa using (List.mem_filter.mp hx).2
    · intro hlt
      exact List.mem_map_of_mem _
        (List.mem_filter.mpr ⟨hes, by simpa using hlt⟩)
  · intro e hes
    rw [hmain.1]
    exact count_map_mkLineItem h.name h.ticker h.qty _ e
      (fun x hx => hnaive x (List.mem_filter.mp hx).1) (hnaive e hes)

/-- C1 witness: the spec's ITC scenario (qty 100, purchase day 0, events at
day 31 for 5.5 and day -31 for 4.0): only the later event survives, as a
single 550-rupee line item. -/
theorem C1_payout_filter_witness :
    (∀ e ∈ ([⟨⟨31, none⟩, 11/2⟩, ⟨⟨-31, none⟩, 4⟩] : List DividendEvent),
      e.date.tz = none)
  ∧ (processHolding ⟨"ITC.NS", "ITC", 100, 0⟩
        (.ok [⟨⟨31, none⟩, 11/2⟩, ⟨⟨-31, none⟩, 4⟩])).items
      = (eligibleEvents 0 [⟨⟨31, none⟩, 11/2⟩, ⟨⟨-31, none⟩, 4⟩]).map
          (mkLineItem "ITC" "ITC.NS" 100)
  ∧ (processHolding ⟨"ITC.NS", "ITC", 100, 0⟩
        (.ok [⟨⟨31, none⟩, 11/2⟩, ⟨⟨-31, none⟩, 4⟩])).gross
      = ((eligibleEvents 0 [⟨⟨31, none⟩, 11/2⟩, ⟨⟨-31, none⟩, 4⟩]).map
          fun e => e.amount * ((100 : ℕ) : ℚ)).sum := by
  have h := C1_payout_filter ⟨"ITC.NS", "ITC", 100, 0⟩
    [⟨⟨31, none⟩, 11/2⟩, ⟨⟨-31, none⟩, 4⟩] (by decide)
  exact ⟨by decide, h.1, h.2.1⟩

/-- C2: for every gross dividend, slab in {0,10,20,30} and withholding
flag: the withholding estimate is gross × 0.10 when enabled and 0
otherwise; the income-tax amount is gross × slab/100; the net in hand is
gross minus income tax; and the withholding amount is never subtracted from
the net (the net figure does not depend on the flag). -/
theorem C2_tax_summary (g : ℚ) (slab : ℕ) (a : Bool)
    (hslab : slab ∈ ([0, 10, 20, 30] : List ℕ)) :
    (computeSummary g slab a).tdsAmount = (if a then g * (10/100) else 0)
  ∧ (computeSummary g slab a).incomeTaxAmount = g * ((slab : ℚ) / 100)
  ∧ (computeSummary g slab a).finalInHand
      = g - (computeSummary g slab a).incomeTaxAmount
  ∧ (computeSummary g slab true).finalInHand
      = (computeSummary g slab false).finalInHand := by
  refine ⟨?_, rfl, rfl, rfl⟩
  cases a <;> norm_num [computeSummary]

/-- C2 witness: the spec's scenario, slab 30 and gross 10000 with
withholding enabled. -/
theorem C2_tax_summary_witness :
    (30 ∈ ([0, 10, 20, 30] : List ℕ))
  ∧ ((computeSummary 10000 30 true).tdsAmount = (if true then (10000 : ℚ) * (10/100) else 0)
  ∧ (computeSummary 10000 30 true).incomeTaxAmount = 10000 * ((30 : ℕ) : ℚ) / 100
  ∧ (computeSummary 10000 30 true).finalInHand
      = 10000 - (computeSummary 10000 30 true).incomeTaxAmount
  ∧ (computeSummary 10000 30 true).finalInHand
      = (computeSummary 10000 30 false).finalInHand) := by
  have h := C2_tax_summary 10000 30 true (by decide)
  exact ⟨by decide, h.1, by rw [h.2.1]; ring, h.2.2.1, h.2.2.2⟩

/-- C3: the run visits every holding: its line items and gross total are
exactly the concatenation/sum of each holding's own contribution (so no
holding's failure aborts the others), and a holding whose fetch raised or
returned an empty series contributes zero line items and zero gross. -/
theorem C3_failure_isolation (p : List Holding)
    (fetch : String → Except String (List DividendEvent)) :
    (runAggregation p fetch).allPayouts
        = (p.map fun h => (processHolding h (fetch h.ticker)).items).flatten
  ∧ (runAggregation p fetch).totalGross
        = (p.map fun h => (processHolding h (fetch h.ticker)).gross).sum
  ∧ ∀ h : Holding, ((∃ e, fetch h.ticker = .error e) ∨ fetch h.ticker = .ok []) →
      (processHolding h (fetch h.ticker)).items = []
      ∧ (processHolding h (fetch h.ticker)).gross = 0 := by
  refine ⟨?_, ?_, fun h hf => processHolding_failure h _ hf⟩ <;>
    rw [runAggregation, foldl_stepHolding] <;> simp

/-- C3 witness: a three-holding portfolio where the first fetch raises and
the second returns an empty series; both contribute nothing and the run
still decomposes over all three holdings. -/
theorem C3_failure_isolation_witness :
    (processHolding ⟨"A.NS", "A", 10, 0⟩ (sampleFetch "A.NS")).items = []
  ∧ (processHolding ⟨"A.NS", "A", 10, 0⟩ (sampleFetch "A.NS")).gross = 0
  ∧ (processHolding ⟨"B.NS", "B", 20, 0⟩ (sampleFetch "B.NS")).items = []
  ∧ (processHolding ⟨"B.NS", "B", 20, 0⟩ (sampleFetch "B.NS")).gross = 0
  ∧ (runAggregation samplePortfolio sampleFetch).allPayouts
      = (samplePortfolio.map
          fun h => (processHolding h (sampleFetch h.ticker)).items).flatten := by
  obtain ⟨h1, _, h3⟩ := C3_failure_isolation samplePortfolio sampleFetch
  have hA := h3 ⟨"A.NS", "A", 10, 0⟩ (Or.inl ⟨"HTTP 404", rfl⟩)
  have hB := h3 ⟨"B.NS", "B", 20, 0⟩ (Or.inr rfl)
  exact ⟨hA.1, hA.2, hB.1, hB.2, h1⟩

/-- C4: contrary to the spec, the engine performs no timezone
normalization: with a timezone-aware date index the comparison against the
naive purchase date raises inside the `try`, the holding is reported as a
fetch failure and contributes no line items, while the equivalent
timezone-naive series yields the eligible payout. -/
theorem C4_no_tz_normalization :
    (processHolding ⟨"ITC.NS", "ITC", 100, 0⟩
        (.ok [⟨⟨31, some "Asia/Kolkata"⟩, 11/2⟩])).items = []
  ∧ (processHolding ⟨"ITC.NS", "ITC", 100, 0⟩
        (.ok [⟨⟨31, some "Asia/Kolkata"⟩, 11/2⟩])).errMsg
      = some (fetchErrorMsg "ITC" "ITC.NS"
          "Cannot compare tz-naive and tz-aware timestamps")
  ∧ (processHolding ⟨"ITC.NS", "ITC", 100, 0⟩
        (.ok [⟨⟨31, none⟩, 11/2⟩])).items
      = [⟨"ITC", "ITC.NS", 31, 11/2, 100, 550⟩] := by
  exact ⟨by decide, by decide, by decide⟩

/-- C5 counterexample: `"ABC!DEF"` fails the spec's validator with
"invalid characters", yet the code adds a holding for it (ticker
`"ABC!DEF.NS"`), so rejected tickers do result in holdings. -/
theorem C5_counterexample :
    specValidateTicker "ABC!DEF" = .error "invalid characters"
  ∧ submitAdd [] (manualResolve "ABC!DEF") 100 0
      = ([⟨"ABC!DEF.NS", "ABC!DEF.NS", 100, 0⟩], none) := by
  exact ⟨rfl, by decide⟩

/-- C5 (amended): the manual entry path performs no validation at all:
every non-empty raw input is normalized (uppercase, spaces removed,
stripped, `.NS`-suffixed when missing) and added as a holding; only the
empty input adds nothing, with a generic error rather than a
"too long"/"invalid characters" rejection. -/
theorem C5_no_validation (raw : String) (p : List Holding) (q : ℕ) (d : ℤ) :
    (raw = "" →
      submitAdd p (manualResolve raw) q d
        = (p, some "Please select or enter a stock."))
  ∧ (raw ≠ "" →
      manualResolve raw = some (manualTicker raw, manualTicker raw)
      ∧ submitAdd p (manualResolve raw) q d
          = (p ++ [⟨manualTicker raw, manualTicker raw, q, d⟩], none)) := by
  constructor
  · intro hEq
    subst hEq
    rfl
  · intro hne
    have hres : manualResolve raw = some (manualTicker raw, manualTicker raw) := by
      simp [manualResolve, hne]
    refine ⟨hres, ?_⟩
    rw [hres]
    simp [submitAdd, manualTicker_ne_empty raw]

/-- C5 witness: the input `"itc"` is accepted unvalidated and stored as
`ITC.NS`. -/
theorem C5_no_validation_witness :
    ("itc" : String) ≠ ""
  ∧ manualResolve "itc" = some (manualTicker "itc", manualTicker "itc")
  ∧ submitAdd [] (manualResolve "itc") 100 0
      = ([⟨manualTicker "itc", manualTicker "itc", 100, 0⟩], none) := by
  have h := (C5_no_validation "itc" [] 100 0).2 (by decide)
  exact ⟨by decide, h.1, h.2⟩

/-- C6 counterexample: the selection `"Foo ()"` parses to an empty symbol,
yet no error is surfaced: the code builds the ticker `".NS"` (truthy in
Python) and appends a holding for it. -/
theorem C6_counterexample :
    parseSelection "Foo ()" = some (".NS", "Foo")
  ∧ submitAdd [] (parseSelection "Foo ()") 10 0
      = ([⟨".NS", "Foo", 10, 0⟩], none) := by
  exact ⟨by decide, by decide⟩

/-- C6 (amended): when the parenthesized-segment parse yields an empty
symbol, the resolver still succeeds with ticker `".NS"` and the submit
handler appends a holding with that ticker (existing holdings unchanged,
no error reported). -/
theorem C6_empty_symbol_added (sel : String) (p : List Holding) (q : ℕ) (d : ℤ)
    (hne : sel ≠ "")
    (hempty : pyStrip (removeChar ')' (pySplitLast sel '(')) = "") :
    parseSelection sel = some (".NS", pyStrip (pySplitFirst sel '('))
  ∧ submitAdd p (parseSelection sel) q d
      = (p ++ [⟨".NS", pyStrip (pySplitFirst sel '('), q, d⟩], none) := by
  have hp : parseSelection sel = some (".NS", pyStrip (pySplitFirst sel '(')) := by
    simp [parseSelection, hne, hempty]
  refine ⟨hp, ?_⟩
  rw [hp]
  simp [submitAdd]

/-- C6 witness: the selection `"Foo ()"` instantiates the amended claim. -/
theorem C6_empty_symbol_added_witness :
    ("Foo ()" : String) ≠ ""
  ∧ pyStrip (removeChar ')' (pySplitLast "Foo ()" '(')) = ""
  ∧ parseSelection "Foo ()" = some (".NS", pyStrip (pySplitFirst "Foo ()" '('))
  ∧ submitAdd [] (parseSelection "Foo ()") 10 0
      = ([] ++ [⟨".NS", pyStrip (pySplitFirst "Foo ()" '('), 10, 0⟩], none) := by
  have h := C6_empty_symbol_added "Foo ()" [] 10 0 (by decide) (by decide)
  exact ⟨by decide, by decide, h.1, h.2⟩

/-- C7 counterexample: for the selection `"Foo (BAR.NS)"` the parenthesized
symbol `BAR.NS` already carries the exchange suffix, yet the code appends
`.NS` unconditionally and yields `"BAR.NS.NS"`, not `"BAR.NS"`. -/
theorem C7_counterexample :
    pyEndsWith "BAR.NS" ".NS" = true
  ∧ parseSelection "Foo (BAR.NS)" = some ("BAR.NS.NS", "Foo")
  ∧ ("BAR.NS.NS" : String) ≠ "BAR.NS" := by
  exact ⟨by decide, by decide, by decide⟩

/-- C7 (amended): for a well-formed selection `name(sym)` (no `(` in either
part, no `)` in the symbol) the resolver returns the stripped symbol with
`.NS` appended unconditionally, and the stripped name; in particular
`"Wipro Ltd (WIPRO)"` resolves to ticker `"WIPRO.NS"` and display name
`"Wipro Ltd"`. -/
theorem C7_symbol_extraction (nm sym : String)
    (h1 : '(' ∉ nm.data) (h2 : '(' ∉ sym.data) (h3 : ')' ∉ sym.data) :
    parseSelection (nm ++ "(" ++ sym ++ ")")
        = some (pyStrip sym ++ ".NS", pyStrip nm)
  ∧ parseSelection "Wipro Ltd (WIPRO)" = some ("WIPRO.NS", "Wipro Ltd") := by
  refine ⟨?_, by decide⟩
  have hdata : (nm ++ "(" ++ sym ++ ")").data
      = nm.data ++ '(' :: (sym.data ++ [')']) := by
    simp [data_append]
  have hne : (nm ++ "(" ++ sym ++ ")") ≠ "" := by
    intro hEq
    have hd : (nm ++ "(" ++ sym ++ ")").data = [] := by rw [hEq]
    rw [hdata] at hd
    simp at hd
  have hlast : pySplitLast (nm ++ "(" ++ sym ++ ")") '(' = ⟨sym.data ++ [')']⟩ := by
    unfold pySplitLast
    rw [hdata]
    have hnotin : '(' ∉ sym.data ++ [')'] := by
      intro hmem
      rcases List.mem_append.mp hmem with hm | hm
      · exact h2 hm
      · simp at hm
    rw [List.getLastD_eq_getLast?, getLast?_splitOnChar_append,
      splitOnChar_of_not_mem hnotin]
    rfl
  have hfirst : pySplitFirst (nm ++ "(" ++ sym ++ ")") '(' = nm := by
    unfold pySplitFirst
    rw [hdata, headD_splitOnChar_append _ h1]
  have hremove : removeChar ')' (⟨sym.data ++ [')']⟩ : String) = sym := by
    unfold removeChar
    show (⟨((sym.data ++ [')']).filter fun c => decide (c ≠ ')'))⟩ : String) = sym
    rw [List.filter_append]
    have hfs : sym.data.filter (fun c => decide (c ≠ ')')) = sym.data :=
      List.filter_eq_self.mpr fun a ha => by
        have hane : a ≠ ')' := fun hEq => h3 (hEq ▸ ha)
        simpa using hane
    rw [hfs]
    simp
  unfold parseSelection
  rw [if_neg hne, hlast, hremove, hfirst]

/-- C7 witness: the Wipro selection written as `name(sym)`. -/
theorem C7_symbol_extraction_witness :
    ('(' ∉ ("Wipro Ltd " : String).data)
  ∧ ('(' ∉ ("WIPRO" : String).data)
  ∧ (')' ∉ ("WIPRO" : String).data)
  ∧ parseSelection ("Wipro Ltd " ++ "(" ++ "WIPRO" ++ ")")
      = some (pyStrip "WIPRO" ++ ".NS", pyStrip "Wipro Ltd ")
  ∧ parseSelection "Wipro Ltd (WIPRO)" = some ("WIPRO.NS", "Wipro Ltd") := by
  have h := C7_symbol_extraction "Wipro Ltd " "WIPRO"
    (by decide) (by decide) (by decide)
  exact ⟨by decide, by decide, by decide, h.1, h.2⟩

/-- C8: the displayed/exported list is the line items sorted by record date
descending (a permutation of the computed items), and the CSV starts with
the exact header row followed by one record per line item. -/
theorem C8_sorted_csv (items : List PayoutLineItem) :
    List.Sorted (fun a b => b.exDate ≤ a.exDate) (sortByExDateDesc items)
  ∧ List.Perm (sortByExDateDesc items) items
  ∧ (csvRecords items).headD ""
      = "Stock,Symbol,Ex-Date,Dividend/Share,Qty,Total Payout"
  ∧ (csvRecords items).length = items.length + 1 := by
  haveI h1 : IsTotal PayoutLineItem (fun a b => b.exDate ≤ a.exDate) :=
    ⟨fun a b => le_total b.exDate a.exDate⟩
  haveI h2 : IsTrans PayoutLineItem (fun a b => b.exDate ≤ a.exDate) :=
    ⟨fun _ _ _ hab hbc => le_trans hbc hab⟩
  refine ⟨List.sorted_insertionSort _ _, List.perm_insertionSort _ _, rfl, ?_⟩
  simp only [csvRecords, List.length_cons, List.length_map, sortByExDateDesc]
  rw [(List.perm_insertionSort _ items).length_eq]

/-- C9 counterexample: a quantity-valid manual add of `"ABC!DEF"` stores a
holding whose ticker `"ABC!DEF.NS"` violates the spec's charset for a
valid ticker, so the claimed store invariant fails. -/
theorem C9_counterexample :
    applyOp [] (.addManual "ABC!DEF" 100 0)
        = [⟨"ABC!DEF.NS", "ABC!DEF.NS", 100, 0⟩]
  ∧ specTickerOK "ABC!DEF.NS" = false
  ∧ ((1 : ℕ) ≤ 100 ∧ (100 : ℕ) ≤ 100000) := by
  exact ⟨by decide, by decide, by decide⟩

/-- C9 (amended): the invariant the add and clear operations actually
preserve: starting from the empty store, after any sequence of form
operations whose quantities respect the widget bounds, every stored
holding has 1 ≤ qty ≤ 100000 and a non-empty ticker ending in ".NS";
charset and length of the ticker are not restricted. -/
theorem C9_store_invariant (ops : List FormOp) (hq : ∀ op ∈ ops, opQtyOK op) :
    ∀ h ∈ ops.foldl applyOp [], holdingInv h := by
  suffices H : ∀ (l : List FormOp) (p : List Holding), (∀ op ∈ l, opQtyOK op) →
      (∀ h ∈ p, holdingInv h) → ∀ h ∈ l.foldl applyOp p, holdingInv h by
    exact H ops [] hq (by simp)
  intro l
  induction l with
  | nil =>
    intro p _ hp
    simpa using hp
  | cons op rest ih =>
    intro p hops hp
    rw [List.foldl_cons]
    exact ih _ (fun o ho => hops o (List.mem_cons_of_mem op ho))
      (applyOp_inv hp (hops op (List.mem_cons_self op rest)))

/-- C9 witness: a mixed sequence of adds and a clear, all quantities within
the widget bounds. -/
theorem C9_store_invariant_witness :
    (∀ op ∈ ([.addManual "itc" 100 0, .addSelect "Wipro Ltd (WIPRO)" 50 10,
        .clear, .addManual "TCS.NS" 1 5] : List FormOp), opQtyOK op)
  ∧ ∀ h ∈ ([.addManual "itc" 100 0, .addSelect "Wipro Ltd (WIPRO)" 50 10,
        .clear, .addManual "TCS.NS" 1 5] : List FormOp).foldl applyOp [],
      holdingInv h :=
  ⟨by decide, C9_store_invariant _ (by decide)⟩

/-- C10 counterexample: on the input `"A\t"` (trailing tab) the code's
normalization strips the tab and yields ticker `"A.NS"`, while the claim's
description (remove spaces, uppercase, suffix) would yield `"A\t.NS"`. -/
theorem C10_counterexample :
    manualTicker "A\t" = "A.NS"
  ∧ claimManualTicker "A\t" = "A\t.NS"
  ∧ ("A.NS" : String) ≠ "A\t.NS"
  ∧ manualResolve "A\t" = some ("A.NS", "A.NS") := by
  exact ⟨by decide, by decide, by decide, by decide⟩

/-- C10 (amended): on inputs whose whitespace characters are all plain
spaces, the code's normalization (uppercase, remove spaces, strip) agrees
with the claim's description (remove spaces, uppercase, suffix `.NS` when
missing), and the result is used as both ticker and display name; on other
inputs the final `strip()` also removes leading/trailing non-space
whitespace. -/
theorem C10_manual_normalization (raw : String)
    (hws : ∀ c ∈ raw.data, isPySpace c = true → c = ' ') :
    manualTicker raw = claimManualTicker raw
  ∧ manualResolve raw
      = (if raw = "" then none
         else some (manualTicker raw, manualTicker raw)) := by
  have hclean : manualClean raw = pyUpper (removeChar ' ' raw) := by
    unfold manualClean pyUpper removeChar
    rw [show ((⟨raw.data.map Char.toUpper⟩ : String)).data
        = raw.data.map Char.toUpper from rfl]
    rw [filter_ne_space_map_toUpper]
    apply pyStrip_of_no_space
    intro c hc
    obtain ⟨x, hx, hxc⟩ := List.mem_map.mp hc
    have hxmem : x ∈ raw.data := (List.mem_filter.mp hx).1
    have hxne : x ≠ ' ' := by simpa using (List.mem_filter.mp hx).2
    have hxsp : isPySpace x = false := by
      by_contra hcon
      rw [Bool.not_eq_false] at hcon
      exact hxne (hws x hxmem hcon)
    rw [← hxc, isPySpace_toUpper]
    exact hxsp
  constructor
  · unfold manualTicker claimManualTicker
    rw [hclean]
  · unfold manualResolve
    by_cases h : raw = "" <;> simp [h]

/-- C10 witness: the input `" itc.ns "` (spaces only) normalizes to
`ITC.NS` on both descriptions. -/
theorem C10_manual_normalization_witness :
    (∀ c ∈ (" itc.ns " : String).data, isPySpace c = true → c = ' ')
  ∧ manualTicker " itc.ns " = claimManualTicker " itc.ns "
  ∧ manualResolve " itc.ns "
      = (if (" itc.ns " : String) = "" then none
         else some (manualTicker " itc.ns ", manualTicker " itc.ns ")) := by
  have h := C10_manual_normalization " itc.ns " (by decide)
  exact ⟨by decide, h.1, h.2⟩
end DiviTrack
